import Mathlib

/-!
Verification model of the riverlane/deltalanguage repository.

The repository's sources available here are its tutorial notebooks (with
executed outputs), the Cap'n Proto interchange schema and documentation;
the Python implementation itself is not in the tree.  The definitions
below therefore model the described components from the specification and
from the in-repository tutorial material: the Deltaflow type system with
its bit-exact pack/unpack codecs, graph validation, a round-robin model
of the Python simulator, and the channel runtime with its global logical
clock and message log.
-/

namespace Deltaflow

/-- Most-significant-bit-first encoding of a natural number in `w` bits
(the last list element is the least significant bit), matching the bit
strings printed by the data-types tutorial. -/
def natToBits : Nat → Nat → List Bool
  | 0, _ => []
  | w + 1, n => natToBits w (n / 2) ++ [decide (n % 2 = 1)]

/-- Decode a most-significant-bit-first bit vector to a natural number. -/
def bitsToNat (bs : List Bool) : Nat :=
  bs.foldl (fun acc b => 2 * acc + cond b 1 0) 0

/-- Fuel-driven search for the least exponent `k ≥ k0` with `n ≤ 2 ^ k`. -/
def clg2Aux : Nat → Nat → Nat → Nat
  | 0, _, k => k
  | fuel + 1, n, k => if n ≤ 2 ^ k then k else clg2Aux fuel n (k + 1)

/-- Ceiling of the base-2 logarithm: the least `k` with `n ≤ 2 ^ k`. -/
def clg2 (n : Nat) : Nat := clg2Aux n n 0

/-- Width in bits of a union's trailing discriminant field: enough bits to
distinguish `n` members, rounded up to a whole number of bytes, at least
one byte (a single-member union still carries a discriminant byte, which
is why it never equals its member type alone). -/
def discBits (n : Nat) : Nat := 8 * Nat.max 1 ((clg2 n + 7) / 8)

/-- Deltaflow data type instances.  Modelled from the spec and the
data-types tutorial: primitives carry a configurable bit width, compound
types are tuples, arrays, records and tagged unions, and `Top` is the
debug-only type accepting anything at a receiving port.  `Float` and
`Complex` values are modelled by their fixed-width bit patterns. -/
inductive DType where
  | Int (size : Nat)
  | UInt (size : Nat)
  | Bool
  | Char
  | Float (size : Nat)
  | Complex (size : Nat)
  | Tuple (elems : List DType)
  | Array (elem : DType) (length : Nat)
  | Record (fields : List (String × DType))
  | Union (members : List DType)
  | Top

/-- Str is a fixed-capacity array of 8-bit characters. -/
def Str (length : Nat) : DType := DType.Array DType.Char length

/-- Runtime values exchanged between nodes.  A union value carries the
index of the member type it inhabits (the discriminant) together with the
payload. -/
inductive DValue where
  | VInt (i : Int)
  | VUInt (n : Nat)
  | VBool (b : Bool)
  | VChar (code : Nat)
  | VFloat (bits : Nat)
  | VComplex (bits : Nat)
  | VTuple (elems : List DValue)
  | VArray (elems : List DValue)
  | VRecord (fields : List DValue)
  | VUnion (tag : Nat) (payload : DValue)

mutual

/-- Modelled from the spec: the statically computable bit size of a
concrete type.  Compound sizes are sums or products of member sizes;
a union is as large as its largest member plus the discriminant field. -/
def dsize : DType → Nat
  | .Int w => w
  | .UInt w => w
  | .Bool => 1
  | .Char => 8
  | .Float w => w
  | .Complex w => w
  | .Tuple ts => dsizeSum ts
  | .Array t n => n * dsize t
  | .Record fs => dsizeFields fs
  | .Union ms => dsizeMax ms + discBits ms.length
  | .Top => 0

/-- Total size of a list of member types (tuple layout). -/
def dsizeSum : List DType → Nat
  | [] => 0
  | t :: ts => dsize t + dsizeSum ts

/-- Total size of a record's field types, in declared order. -/
def dsizeFields : List (String × DType) → Nat
  | [] => 0
  | f :: fs => dsize f.2 + dsizeFields fs

/-- Size of the largest member of a union (the shared payload region). -/
def dsizeMax : List DType → Nat
  | [] => 0
  | t :: ts => Nat.max (dsize t) (dsizeMax ts)

end

mutual

/-- Modelled from the spec and the data-types tutorial: serialize a value
against a type to its flat bit vector.  Returns `none` when the value's
shape disagrees with the type (the `TypeMismatch` failure).  Integers use
two's complement with the most significant bit first; tuples, records and
arrays concatenate member encodings in declared order; a union left-pads
the selected member's payload to the shared max-sized region and appends
the member's discriminant in the trailing fixed-width field.  `Top` has
no canonical pack form. -/
def pack : DType → DValue → Option (List Bool)
  | .Int w, .VInt i =>
      if -(2 ^ (w - 1) : Int) ≤ i ∧ i < (2 ^ (w - 1) : Int) ∧ 1 ≤ w then
        some (natToBits w (i % (2 ^ w : Int)).toNat)
      else none
  | .UInt w, .VUInt n => if n < 2 ^ w then some (natToBits w n) else none
  | .Bool, .VBool b => some [b]
  | .Char, .VChar c => if c < 256 then some (natToBits 8 c) else none
  | .Float w, .VFloat bits => if bits < 2 ^ w then some (natToBits w bits) else none
  | .Complex w, .VComplex bits => if bits < 2 ^ w then some (natToBits w bits) else none
  | .Tuple ts, .VTuple vs => packSeq ts vs
  | .Array t n, .VArray vs =>
      if vs.length = n then packSeq (List.replicate n t) vs else none
  | .Record fs, .VRecord vs => packSeq (fs.map Prod.snd) vs
  | .Union ms, .VUnion tag pv =>
      match ms[tag]? with
      | some m =>
          match pack m pv with
          | some payload =>
              some (payload ++ List.replicate (dsizeMax ms - payload.length) false
                    ++ natToBits (discBits ms.length) tag)
          | none => none
      | none => none
  | _, _ => none

/-- Serialize a list of values against a list of types, concatenating the
encodings in declared order. -/
def packSeq : List DType → List DValue → Option (List Bool)
  | [], [] => some []
  | t :: ts, v :: vs =>
      match pack t v, packSeq ts vs with
      | some b, some r => some (b ++ r)
      | _, _ => none
  | _, _ => none

end

mutual

/-- Modelled from the spec: decode a bit vector against a type.  Returns
`none` when the vector's length disagrees with the type's fixed size (the
`MalformedEncoding` failure).  A union reads the trailing discriminant
field and decodes the selected member from the front of the shared
payload region. -/
def unpack : DType → List Bool → Option DValue
  | .Int w, bs =>
      if bs.length = w ∧ 1 ≤ w then
        some (.VInt (if bitsToNat bs < 2 ^ (w - 1) then (bitsToNat bs : Int)
                     else (bitsToNat bs : Int) - 2 ^ w))
      else none
  | .UInt w, bs => if bs.length = w then some (.VUInt (bitsToNat bs)) else none
  | .Bool, bs =>
      match bs with
      | [b] => some (.VBool b)
      | _ => none
  | .Char, bs => if bs.length = 8 then some (.VChar (bitsToNat bs)) else none
  | .Float w, bs => if bs.length = w then some (.VFloat (bitsToNat bs)) else none
  | .Complex w, bs => if bs.length = w then some (.VComplex (bitsToNat bs)) else none
  | .Tuple ts, bs => (unpackSeq ts bs).map .VTuple
  | .Array t n, bs => (unpackArr t n bs).map .VArray
  | .Record fs, bs => (unpackFields fs bs).map .VRecord
  | .Union ms, bs =>
      if bs.length = dsizeMax ms + discBits ms.length then
        (unpackMember ms (bitsToNat (bs.drop (dsizeMax ms)))
            (bs.take (dsizeMax ms))).map (.VUnion (bitsToNat (bs.drop (dsizeMax ms))))
      else none
  | .Top, _ => none
termination_by T _ => 2 * sizeOf T

/-- Decode consecutive members of a tuple layout, consuming exactly each
member's size and requiring the vector to be exhausted at the end. -/
def unpackSeq : List DType → List Bool → Option (List DValue)
  | [], bs => if bs = [] then some [] else none
  | t :: ts, bs =>
      match unpack t (bs.take (dsize t)), unpackSeq ts (bs.drop (dsize t)) with
      | some v, some r => some (v :: r)
      | _, _ => none
termination_by ts _ => 2 * sizeOf ts

/-- Decode `n` consecutive elements of an array layout. -/
def unpackArr : DType → Nat → List Bool → Option (List DValue)
  | _, 0, bs => if bs = [] then some [] else none
  | t, n + 1, bs =>
      match unpack t (bs.take (dsize t)), unpackArr t n (bs.drop (dsize t)) with
      | some v, some r => some (v :: r)
      | _, _ => none
termination_by t n _ => 2 * sizeOf t + n + 1

/-- Decode a record's fields in declared order. -/
def unpackFields : List (String × DType) → List Bool → Option (List DValue)
  | [], bs => if bs = [] then some [] else none
  | (_s, t) :: fs, bs =>
      match unpack t (bs.take (dsize t)), unpackFields fs (bs.drop (dsize t)) with
      | some v, some r => some (v :: r)
      | _, _ => none
termination_by fs _ => 2 * sizeOf fs

/-- Decode the union member selected by the discriminant `tag` from the
front of the shared payload region. -/
def unpackMember : List DType → Nat → List Bool → Option DValue
  | [], _, _ => none
  | m :: _, 0, bs => unpack m (bs.take (dsize m))
  | _ :: ms, tag + 1, bs => unpackMember ms tag bs
termination_by ms _ _ => 2 * sizeOf ms

end

mutual

/-- Modelled from the spec: the overloaded equality on type instances.
Two instances are equal exactly when they have the same variant and
identical structural parameters: bit widths, lengths, member types, and
field names and order. -/
def dtypeEq : DType → DType → Bool
  | .Int w, .Int w2 => w == w2
  | .UInt w, .UInt w2 => w == w2
  | .Bool, .Bool => true
  | .Char, .Char => true
  | .Float w, .Float w2 => w == w2
  | .Complex w, .Complex w2 => w == w2
  | .Tuple ts, .Tuple ts2 => dtypeEqList ts ts2
  | .Array t n, .Array t2 n2 => dtypeEq t t2 && n == n2
  | .Record fs, .Record fs2 => dtypeEqFields fs fs2
  | .Union ms, .Union ms2 => dtypeEqList ms ms2
  | .Top, .Top => true
  | _, _ => false

/-- Pointwise equality of member type lists, in order. -/
def dtypeEqList : List DType → List DType → Bool
  | [], [] => true
  | t :: ts, t2 :: ts2 => dtypeEq t t2 && dtypeEqList ts ts2
  | _, _ => false

/-- Pointwise equality of record fields: names and types, in order. -/
def dtypeEqFields : List (String × DType) → List (String × DType) → Bool
  | [], [] => true
  | (s, t) :: fs, (s2, t2) :: fs2 => s == s2 && dtypeEq t t2 && dtypeEqFields fs fs2
  | _, _ => false

end

/-- Modelled from the spec: wire compatibility between a producer port
type and a consumer port type is equality, except that a consumer of type
`Top` accepts every producer type — only at the top level of a port, so a
`Top` occurring inside a compound type is compared structurally and does
not accept substitutes. -/
def is_compatible (producer consumer : DType) : Bool :=
  match consumer with
  | .Top => true
  | _ => dtypeEq producer consumer

/-- Wire record of the interchange schema (df.capnp): a directed
connection from a source node's output port to a destination node's
input port, plus a flag requesting a minimum-capacity buffer. -/
structure GWire where
  srcNode : Nat
  srcOutPort : Nat
  destNode : Nat
  destInPort : Nat
  direct : Bool
deriving DecidableEq

/-- Input port of the interchange schema: name, type, optionality. -/
structure GInPort where
  name : String
  ptype : DType
  optional : Bool

/-- Output port of the interchange schema: name and type. -/
structure GOutPort where
  name : String
  ptype : DType

/-- Node of the interchange schema: a display name, indices into the
program's body list, and ordered typed ports. -/
structure GNode where
  name : String
  bodies : List Nat
  inPorts : List GInPort
  outPorts : List GOutPort

/-- Program graph: the node list plus the wire list. -/
structure DGraph where
  nodes : List GNode
  wires : List GWire

/-- Two wires name the same destination (node, input port) pair. -/
def sameDest (w1 w2 : GWire) : Bool :=
  w1.destNode == w2.destNode && w1.destInPort == w2.destInPort

/-- Modelled from the spec: the fan-in check of graph validation — some
destination input port is fed by more than one wire. -/
def hasDupDest : List GWire → Bool
  | [] => false
  | w :: rest => rest.any (fun w2 => sameDest w w2) || hasDupDest rest

/-- Modelled from the spec: a wire is well typed when its endpoints exist
and the source output port's type is accepted by the destination input
port. -/
def wireTypeOk (g : DGraph) (w : GWire) : Bool :=
  match g.nodes[w.srcNode]?, g.nodes[w.destNode]? with
  | some sn, some dn =>
      match sn.outPorts[w.srcOutPort]?, dn.inPorts[w.destInPort]? with
      | some op, some ip => is_compatible op.ptype ip.ptype
      | _, _ => false
  | _, _ => false

/-- Modelled from the spec: graph validation before any worker starts —
every wire well typed, no duplicate producer for any input port, and a
non-empty body list on every node. -/
def validateGraph (g : DGraph) : Bool :=
  !hasDupDest g.wires && g.wires.all (wireTypeOk g)
    && g.nodes.all (fun n => !n.bodies.isEmpty)

/-- Marker for a refused run. -/
inductive RunRefusal where
  | validationError
deriving DecidableEq

/-- Modelled from the spec: `run` validates the graph first and refuses
to start — no worker is created — when validation fails. -/
def runGraph (g : DGraph) : Except RunRefusal Unit :=
  if validateGraph g then Except.ok () else Except.error RunRefusal.validationError

/-- Concrete two-node graph whose two wires are type-compatible but feed
the same destination input port. -/
def c5Graph : DGraph :=
  { nodes :=
      [ { name := "src", bodies := [0], inPorts := [],
          outPorts := [ { name := "output", ptype := DType.Int 32 } ] },
        { name := "dst", bodies := [0],
          inPorts := [ { name := "a", ptype := DType.Int 32, optional := false } ],
          outPorts := [] } ]
    wires := [ ⟨0, 0, 1, 0, false⟩, ⟨0, 0, 1, 0, true⟩ ] }

/-- Result of invoking a node body once: at most one value per output
port, an optional externally recorded value (the `StateSaver` sink), and
whether the body signalled cooperative termination (`DeltaRuntimeExit`). -/
structure BodyResult where
  outs : List (Option Nat)
  save : Option Nat
  exitRequested : Bool

/-- An executable node as seen by the simulator: the wire indices feeding
its input ports in declaration order, the fan-out wire lists of its
output ports, and the selected body. -/
structure SimNode where
  inWires : List Nat
  outWires : List (List Nat)
  body : List Nat → BodyResult

/-- Structured outcome of a run: cooperative termination is the normal
`Completed` outcome, a body fault names the offending node. -/
inductive Outcome where
  | Completed
  | Faulted (node : Nat)
deriving DecidableEq

/-- Simulator state: one FIFO queue per wire, the values recorded by
sinks, and the aggregated outcome once termination is observed. -/
structure SimState where
  queues : List (List Nat)
  saved : List Nat
  outcome : Option Outcome

/-- Dequeue the head of wire `w`, failing when the queue is empty (the
worker would block). -/
def popWire (qs : List (List Nat)) (w : Nat) : Option (Nat × List (List Nat)) :=
  match qs[w]? with
  | some (v :: rest) => some (v, qs.set w rest)
  | _ => none

/-- Modelled from the spec (NodeExecutor, Gathering): block on each
required input port's queue in declaration order until a value is
available for every one, consuming the heads. -/
def gather : List (List Nat) → List Nat → Option (List Nat × List (List Nat))
  | qs, [] => some ([], qs)
  | qs, w :: ws =>
      match popWire qs w with
      | none => none
      | some (v, qs2) =>
          match gather qs2 ws with
          | none => none
          | some (vs, qs3) => some (v :: vs, qs3)

/-- Enqueue a value at the back of wire `w`. -/
def pushWire (qs : List (List Nat)) (w : Nat) (v : Nat) : List (List Nat) :=
  qs.set w (qs.getD w [] ++ [v])

/-- Broadcast one produced value onto every wire fed by its output port. -/
def routeOne (qs : List (List Nat)) (ws : List Nat) (v : Nat) : List (List Nat) :=
  ws.foldl (fun acc w => pushWire acc w v) qs

/-- Modelled from the spec (NodeExecutor, Routing): for every output port
that produced a value this firing, put it onto every wire fed by that
port; a port that produced nothing is skipped. -/
def route : List (List Nat) → List (List Nat) → List (Option Nat) → List (List Nat)
  | qs, [], _ => qs
  | qs, _, [] => qs
  | qs, ws :: rest, o :: os =>
      match o with
      | some v => route (routeOne qs ws v) rest os
      | none => route qs rest os

/-- Modelled from the spec (NodeExecutor): one firing attempt of a node —
gather all required inputs (or stay blocked), invoke the body, route its
outputs, record any saved value and observe a termination signal as the
normal `Completed` outcome, never as a fault. -/
def fireNode (st : SimState) (node : SimNode) : SimState :=
  match st.outcome with
  | some _ => st
  | none =>
      match gather st.queues node.inWires with
      | none => st
      | some (ins, qs2) =>
          let r := node.body ins
          { queues := route qs2 node.outWires r.outs
            saved := st.saved ++ r.save.toList
            outcome := if r.exitRequested then some Outcome.Completed else none }

/-- One scheduler cycle: give every node one firing attempt in turn. -/
def simCycle (st : SimState) (nodes : List SimNode) : SimState :=
  nodes.foldl fireNode st

/-- Modelled from the spec (Simulator/Scheduler): the concurrent workers
are modelled as a sequential round-robin interleaving; run cycles until a
termination signal is observed or the fuel is exhausted. -/
def runSim : Nat → List SimNode → SimState → SimState
  | 0, _, st => st
  | fuel + 1, nodes, st =>
      match st.outcome with
      | some _ => st
      | none => runSim fuel nodes (simCycle st nodes)

/-- The quick-start graph: two constant sources emit 4 and 3 into an add
node computing a+b, whose output feeds a sink that records the value and
signals termination. -/
def c2AddGraph : List SimNode :=
  [ { inWires := [], outWires := [[0]], body := fun _ => ⟨[some 4], none, false⟩ },
    { inWires := [], outWires := [[1]], body := fun _ => ⟨[some 3], none, false⟩ },
    { inWires := [0, 1], outWires := [[2]],
      body := fun ins => ⟨[some (ins.getD 0 0 + ins.getD 1 0)], none, false⟩ },
    { inWires := [2], outWires := [],
      body := fun ins => ⟨[], some (ins.getD 0 0), true⟩ } ]

/-- Initial state of the quick-start graph: three empty wire queues. -/
def c2Init : SimState := ⟨[[], [], []], [], none⟩

/-- Modelled from the spec (ChannelRuntime): shared channel state — one
FIFO queue of `(value, stamp)` messages per wire, the sequence of values
each consumer has received per wire, the single globally shared logical
clock, and the append-only message log of `(stamp, wire, value)` entries. -/
structure ChanState where
  queues : Nat → List (Nat × Nat)
  received : Nat → List Nat
  clock : Nat
  log : List (Nat × Nat × Nat)

/-- A channel operation performed by some worker: a producer enqueues a
value on a wire, or a consumer dequeues from a wire. -/
inductive ChanOp where
  | put (w v : Nat)
  | get (w : Nat)

/-- Modelled from the spec: one channel step.  A successful `put`
increments the globally shared logical clock under its lock, stamps the
message with the fresh clock value, enqueues it, and appends it to the
message log; a `get` delivers the head of the wire's queue to the
consumer, and on an empty queue the consumer blocks (no state change in
the trace model). -/
def chanStep (st : ChanState) : ChanOp → ChanState
  | .put w v =>
      { queues := fun u => if u = w then st.queues w ++ [(v, st.clock + 1)] else st.queues u
        received := st.received
        clock := st.clock + 1
        log := st.log ++ [(st.clock + 1, w, v)] }
  | .get w =>
      match st.queues w with
      | [] => st
      | (v, _) :: rest =>
          { queues := fun u => if u = w then rest else st.queues u
            received := fun u => if u = w then st.received w ++ [v] else st.received u
            clock := st.clock
            log := st.log }

/-- Run a trace of interleaved channel operations. -/
def chanRun : List ChanOp → ChanState → ChanState
  | [], st => st
  | op :: ops, st => chanRun ops (chanStep st op)

/-- Initial channel state: all queues empty, clock zero, empty log. -/
def chanInit : ChanState := ⟨fun _ => [], fun _ => [], 0, []⟩

/-- Values put on wire `w` over a trace, in order. -/
def sentOn (ops : List ChanOp) (w : Nat) : List Nat :=
  ops.filterMap fun op =>
    match op with
    | .put u v => if u = w then some v else none
    | .get _ => none

/-- Values still pending in the queue of wire `w`. -/
def pendingOn (st : ChanState) (w : Nat) : List Nat :=
  (st.queues w).map Prod.fst

/-- The logical-clock stamps of the message log, in append order. -/
def logStamps (st : ChanState) : List Nat := st.log.map fun e => e.1

/-- Number of puts in a trace. -/
def numPuts : List ChanOp → Nat
  | [] => 0
  | .put _ _ :: ops => numPuts ops + 1
  | .get _ :: ops => numPuts ops

/-- Insert a log entry into a stamp-sorted list. -/
def insertByStamp (e : Nat × Nat × Nat) : List (Nat × Nat × Nat) → List (Nat × Nat × Nat)
  | [] => [e]
  | x :: xs => if e.1 ≤ x.1 then e :: x :: xs else x :: insertByStamp e xs

/-- Modelled from the spec: at the end of a run the accumulated message
log is flushed sorted in ascending logical-clock order. -/
def flushLog (st : ChanState) : List (Nat × Nat × Nat) :=
  st.log.foldr insertByStamp []

/-- Demo trace for FIFO: the values 1, 2, 3 are put on wire 0 in order,
interleaved with unrelated traffic on wire 1. -/
def c9DemoOps : List ChanOp :=
  [ ChanOp.put 0 1, ChanOp.put 1 9, ChanOp.put 0 2, ChanOp.get 0, ChanOp.put 1 8,
    ChanOp.get 0, ChanOp.get 1, ChanOp.put 0 3, ChanOp.get 0 ]

/-- Demo trace for message loss at termination: ten values are sent on
wire 0 but delivery stops after six deliveries. -/
def c10CutOps : List ChanOp :=
  [ ChanOp.put 0 1, ChanOp.put 0 2, ChanOp.put 0 3, ChanOp.put 0 4, ChanOp.put 0 5,
    ChanOp.put 0 6, ChanOp.put 0 7, ChanOp.put 0 8, ChanOp.put 0 9, ChanOp.put 0 10,
    ChanOp.get 0, ChanOp.get 0, ChanOp.get 0, ChanOp.get 0, ChanOp.get 0, ChanOp.get 0 ]

/-- Demo trace in which all ten sent values are delivered. -/
def c10AllOps : List ChanOp :=
  [ ChanOp.put 0 1, ChanOp.get 0, ChanOp.put 0 2, ChanOp.get 0, ChanOp.put 0 3,
    ChanOp.get 0, ChanOp.put 0 4, ChanOp.get 0, ChanOp.put 0 5, ChanOp.get 0,
    ChanOp.put 0 6, ChanOp.get 0, ChanOp.put 0 7, ChanOp.get 0, ChanOp.put 0 8,
    ChanOp.get 0, ChanOp.put 0 9, ChanOp.get 0, ChanOp.put 0 10, ChanOp.get 0 ]

/-- Modelled from the interactive-node tutorial in the repository (the
implementation itself is not in the source tree): `receive` called with
no arguments retrieves all the inputs and returns them to the caller as a
dict from name to value; until every input is available the call blocks,
rendered here as `none`.  The pending list holds, per input port in
declaration order, the head value of its queue when one is available. -/
def receiveNoArgs (pending : List (String × Option Nat)) : Option (List (String × Nat)) :=
  if pending.all (fun p => p.2.isSome) then
    some (pending.filterMap (fun p => p.2.map (fun v => (p.1, v))))
  else none

/-- The first-available named input as a single name-to-value pair, which
is what the specification sentence says `receive()` returns. -/
def firstAvailable (pending : List (String × Option Nat)) : Option (String × Nat) :=
  pending.findSome? (fun p => p.2.map (fun v => (p.1, v)))

@[simp] theorem natToBits_length (w n : Nat) : (natToBits w n).length = w := by
  induction w generalizing n with
  | zero => rfl
  | succ w ih => simp [natToBits, ih]

theorem bitsToNat_append_singleton (bs : List Bool) (b : Bool) :
    bitsToNat (bs ++ [b]) = 2 * bitsToNat bs + cond b 1 0 := by
  simp [bitsToNat, List.foldl_append]

theorem bitsToNat_natToBits (w n : Nat) : bitsToNat (natToBits w n) = n % 2 ^ w := by
  induction w generalizing n with
  | zero => simp [natToBits, bitsToNat, Nat.mod_one]
  | succ w ih =>
      have hcond : cond (decide (n % 2 = 1)) 1 0 = n % 2 := by
        rcases Nat.mod_two_eq_zero_or_one n with h | h <;> simp [h]
      calc bitsToNat (natToBits (w + 1) n)
          = 2 * bitsToNat (natToBits w (n / 2)) + cond (decide (n % 2 = 1)) 1 0 := by
            rw [natToBits, bitsToNat_append_singleton]
        _ = 2 * (n / 2 % 2 ^ w) + n % 2 := by rw [ih, hcond]
        _ = n % 2 ^ (w + 1) := by
            rw [Nat.pow_succ']
            rw [Nat.mod_mul]
            omega

theorem bitsToNat_natToBits_of_lt {w n : Nat} (h : n < 2 ^ w) :
    bitsToNat (natToBits w n) = n := by
  rw [bitsToNat_natToBits, Nat.mod_eq_of_lt h]

theorem clg2Aux_spec : ∀ (fuel n k : Nat), n ≤ 2 ^ (k + fuel) → n ≤ 2 ^ clg2Aux fuel n k := by
  intro fuel
  induction fuel with
  | zero => intro n k h; simp only [clg2Aux]; simpa using h
  | succ fuel ih =>
      intro n k h
      rw [clg2Aux]
      by_cases hk : n ≤ 2 ^ k
      · simp [hk]
      · simp only [hk, if_false]
        exact ih n (k + 1) (by rw [show k + 1 + fuel = k + (fuel + 1) by omega]; exact h)

theorem le_two_pow_clg2 (n : Nat) : n ≤ 2 ^ clg2 n :=
  clg2Aux_spec n n 0 (by simp [Nat.le_of_lt (Nat.lt_two_pow n)])

theorem clg2_le_discBits (n : Nat) : clg2 n ≤ discBits n := by
  unfold discBits
  calc clg2 n ≤ 8 * ((clg2 n + 7) / 8) := by omega
    _ ≤ 8 * Nat.max 1 ((clg2 n + 7) / 8) :=
        Nat.mul_le_mul_left 8 (Nat.le_max_right _ _)

theorem le_two_pow_discBits (n : Nat) : n ≤ 2 ^ discBits n :=
  le_trans (le_two_pow_clg2 n)
    (Nat.pow_le_pow_right (by norm_num) (clg2_le_discBits n))

theorem dsize_le_dsizeMax_of_mem {m : DType} : ∀ {ms : List DType}, m ∈ ms → dsize m ≤ dsizeMax ms := by
  intro ms hm
  induction ms with
  | nil => cases hm
  | cons t ts ih =>
      rcases List.mem_cons.mp hm with h | h
      · subst h; exact le_trans (Nat.le_max_left _ _) (le_of_eq rfl)
      · exact le_trans (ih h) (Nat.le_max_right _ _)

theorem dsizeSum_replicate (n : Nat) (t : DType) :
    dsizeSum (List.replicate n t) = n * dsize t := by
  induction n with
  | zero => simp [dsizeSum]
  | succ n ih => rw [List.replicate_succ, dsizeSum, ih]; ring

theorem dsizeFields_eq_dsizeSum (fs : List (String × DType)) :
    dsizeFields fs = dsizeSum (fs.map Prod.snd) := by
  induction fs with
  | nil => rfl
  | cons f fs ih => simp [dsizeFields, dsizeSum, ih]

theorem unpackMember_eq (ms : List DType) (tag : Nat) (bs : List Bool) :
    unpackMember ms tag bs =
      match ms[tag]? with
      | some m => unpack m (bs.take (dsize m))
      | none => none := by
  induction ms generalizing tag with
  | nil => simp [unpackMember]
  | cons m ms ih =>
      cases tag with
      | zero => simp [unpackMember]
      | succ tag => simpa [unpackMember] using ih tag

theorem unpackArr_eq_unpackSeq (t : DType) (n : Nat) (bs : List Bool) :
    unpackArr t n bs = unpackSeq (List.replicate n t) bs := by
  induction n generalizing bs with
  | zero => simp [unpackArr, unpackSeq]
  | succ n ih => rw [List.replicate_succ, unpackArr, unpackSeq, ih]

theorem unpackFields_eq_unpackSeq (fs : List (String × DType)) (bs : List Bool) :
    unpackFields fs bs = unpackSeq (fs.map Prod.snd) bs := by
  induction fs generalizing bs with
  | nil => simp [unpackFields, unpackSeq]
  | cons f fs ih =>
      obtain ⟨s, t⟩ := f
      simp only [List.map_cons, unpackFields, unpackSeq, ih]

theorem int_decode_encode (w : Nat) (i : Int) (hw : 1 ≤ w)
    (h1 : -(2 ^ (w - 1) : Int) ≤ i) (h2 : i < (2 ^ (w - 1) : Int)) :
    (i % (2 ^ w : Int)).toNat < 2 ^ w ∧
    (if (i % (2 ^ w : Int)).toNat < 2 ^ (w - 1)
     then (((i % (2 ^ w : Int)).toNat : Int))
     else (((i % (2 ^ w : Int)).toNat : Int)) - 2 ^ w) = i := by
  have hpow : (2 ^ w : Int) = 2 * 2 ^ (w - 1) := by
    conv_lhs => rw [show w = w - 1 + 1 from by omega]
    rw [pow_succ]
    ring
  have hKpos : (0 : Int) < 2 ^ (w - 1) := by positivity
  have hMpos : (0 : Int) < 2 ^ w := by positivity
  have hmod : i % (2 ^ w : Int) = if 0 ≤ i then i else i + 2 ^ w := by
    by_cases hi : 0 ≤ i
    · rw [if_pos hi]
      exact Int.emod_eq_of_lt hi (by omega)
    · rw [if_neg hi]
      have h3 : (i + 2 ^ w * 1) % (2 ^ w : Int) = i % 2 ^ w := Int.add_mul_emod_self_left _ _ _
      rw [mul_one] at h3
      rw [← h3]
      exact Int.emod_eq_of_lt (by omega) (by omega)
  have hnn : 0 ≤ i % (2 ^ w : Int) := Int.emod_nonneg i (ne_of_gt hMpos)
  have hcast : (((i % (2 ^ w : Int)).toNat : Int)) = i % 2 ^ w := Int.toNat_of_nonneg hnn
  have hcastK : ((2 ^ (w - 1) : Nat) : Int) = (2 : Int) ^ (w - 1) := by push_cast; rfl
  have hcastM : ((2 ^ w : Nat) : Int) = (2 : Int) ^ w := by push_cast; rfl
  constructor
  · have hup : i % (2 ^ w : Int) < 2 ^ w := Int.emod_lt_of_pos i hMpos
    omega
  · by_cases hi : 0 ≤ i
    · have hmeq : i % (2 ^ w : Int) = i := by rw [hmod, if_pos hi]
      have hvi : (((i % (2 ^ w : Int)).toNat : Int)) = i := by rw [hcast, hmeq]
      have hclt : (i % (2 ^ w : Int)).toNat < 2 ^ (w - 1) := by omega
      rw [if_pos hclt, hvi]
    · have hmeq : i % (2 ^ w : Int) = i + 2 ^ w := by rw [hmod, if_neg hi]
      have hvi : (((i % (2 ^ w : Int)).toNat : Int)) = i + 2 ^ w := by rw [hcast, hmeq]
      have hcge : ¬ (i % (2 ^ w : Int)).toNat < 2 ^ (w - 1) := by omega
      rw [if_neg hcge, hvi]
      ring

mutual

/-- Packing a value against a type produces a vector of exactly the
type's size, and unpacking that vector recovers the value. -/
theorem pack_size_unpack : ∀ (T : DType) (v : DValue) (bs : List Bool),
    pack T v = some bs → bs.length = dsize T ∧ unpack T bs = some v := by
  intro T v bs h
  cases T with
  | Int w =>
      cases v
      case VInt i =>
        simp only [pack] at h
        split at h
        case isFalse => exact Option.noConfusion h
        case isTrue hc =>
          obtain ⟨h1, h2, hw⟩ := hc
          obtain ⟨hlt, hdec⟩ := int_decode_encode w i hw h1 h2
          have hbs : bs = natToBits w ((i % (2 ^ w : Int)).toNat) := (Option.some.inj h).symm
          subst hbs
          refine ⟨by simp [dsize], ?_⟩
          simp only [unpack]
          rw [if_pos ⟨by simp, hw⟩]
          rw [bitsToNat_natToBits_of_lt hlt, hdec]
      all_goals simp only [pack] at h; exact Option.noConfusion h
  | UInt w =>
      cases v
      case VUInt n =>
        simp only [pack] at h
        split at h
        case isFalse => exact Option.noConfusion h
        case isTrue hn =>
          have hbs : bs = natToBits w n := (Option.some.inj h).symm
          subst hbs
          refine ⟨by simp [dsize], ?_⟩
          simp only [unpack]
          rw [if_pos (by simp), bitsToNat_natToBits_of_lt hn]
      all_goals simp only [pack] at h; exact Option.noConfusion h
  | Bool =>
      cases v
      case VBool b =>
        simp only [pack] at h
        have hbs : bs = [b] := (Option.some.inj h).symm
        subst hbs
        exact ⟨by simp [dsize], by simp [unpack]⟩
      all_goals simp only [pack] at h; exact Option.noConfusion h
  | Char =>
      cases v
      case VChar c =>
        simp only [pack] at h
        split at h
        case isFalse => exact Option.noConfusion h
        case isTrue hc =>
          have hbs : bs = natToBits 8 c := (Option.some.inj h).symm
          subst hbs
          refine ⟨by simp [dsize], ?_⟩
          simp only [unpack]
          rw [if_pos (by simp), bitsToNat_natToBits_of_lt (by omega)]
      all_goals simp only [pack] at h; exact Option.noConfusion h
  | Float w =>
      cases v
      case VFloat n =>
        simp only [pack] at h
        split at h
        case isFalse => exact Option.noConfusion h
        case isTrue hn =>
          have hbs : bs = natToBits w n := (Option.some.inj h).symm
          subst hbs
          refine ⟨by simp [dsize], ?_⟩
          simp only [unpack]
          rw [if_pos (by simp), bitsToNat_natToBits_of_lt hn]
      all_goals simp only [pack] at h; exact Option.noConfusion h
  | Complex w =>
      cases v
      case VComplex n =>
        simp only [pack] at h
        split at h
        case isFalse => exact Option.noConfusion h
        case isTrue hn =>
          have hbs : bs = natToBits w n := (Option.some.inj h).symm
          subst hbs
          refine ⟨by simp [dsize], ?_⟩
          simp only [unpack]
          rw [if_pos (by simp), bitsToNat_natToBits_of_lt hn]
      all_goals simp only [pack] at h; exact Option.noConfusion h
  | Tuple ts =>
      cases v
      case VTuple vs =>
        simp only [pack] at h
        obtain ⟨hlen, hun⟩ := packSeq_size_unpack ts vs bs h
        refine ⟨by simp [dsize, hlen], ?_⟩
        simp only [unpack]
        rw [hun]
        rfl
      all_goals simp only [pack] at h; exact Option.noConfusion h
  | Array t n =>
      cases v
      case VArray vs =>
        simp only [pack] at h
        split at h
        case isFalse => exact Option.noConfusion h
        case isTrue hn =>
          obtain ⟨hlen, hun⟩ := packSeq_size_unpack (List.replicate n t) vs bs h
          refine ⟨?_, ?_⟩
          · rw [hlen, dsizeSum_replicate]
            simp [dsize]
          · simp only [unpack]
            rw [unpackArr_eq_unpackSeq, hun]
            rfl
      all_goals simp only [pack] at h; exact Option.noConfusion h
  | Record fs =>
      cases v
      case VRecord vs =>
        simp only [pack] at h
        obtain ⟨hlen, hun⟩ := packSeq_size_unpack (fs.map Prod.snd) vs bs h
        refine ⟨?_, ?_⟩
        · rw [hlen, ← dsizeFields_eq_dsizeSum]
          simp [dsize]
        · simp only [unpack]
          rw [unpackFields_eq_unpackSeq, hun]
          rfl
      all_goals simp only [pack] at h; exact Option.noConfusion h
  | Union ms =>
      cases v
      case VUnion tag pv =>
        simp only [pack] at h
        cases hm : ms[tag]? with
        | none => simp only [hm] at h; exact Option.noConfusion h
        | some m =>
            simp only [hm] at h
            cases hp : pack m pv with
            | none => simp only [hp] at h; exact Option.noConfusion h
            | some payload =>
                simp only [hp] at h
                have hbs := (Option.some.inj h).symm
                subst hbs
                obtain ⟨hplen, hpun⟩ := pack_size_unpack m pv payload hp
                have hmem : m ∈ ms := List.getElem?_mem hm
                have hle : dsize m ≤ dsizeMax ms := dsize_le_dsizeMax_of_mem hmem
                have htag : tag < ms.length := by
                  obtain ⟨hlt, -⟩ := List.getElem?_eq_some_iff.mp hm
                  exact hlt
                have hppad :
                    (payload ++ List.replicate (dsizeMax ms - payload.length) false).length
                      = dsizeMax ms := by
                  simp
                  omega
                have htaglt : tag < 2 ^ discBits ms.length :=
                  lt_of_lt_of_le htag (le_two_pow_discBits ms.length)
                constructor
                · simp [dsize]
                  omega
                · simp only [unpack]
                  rw [if_pos (by simp; omega)]
                  rw [List.drop_left' hppad, List.take_left' hppad]
                  rw [bitsToNat_natToBits_of_lt htaglt]
                  rw [unpackMember_eq]
                  simp only [hm]
                  have htake :
                      (payload ++ List.replicate (dsizeMax ms - payload.length) false).take
                        (dsize m) = payload :=
                    List.take_left' hplen
                  rw [htake, hpun]
                  rfl
      all_goals simp only [pack] at h; exact Option.noConfusion h
  | Top =>
      cases v
      all_goals simp only [pack] at h; exact Option.noConfusion h
termination_by T v bs _ => sizeOf v

/-- Sequence version of `pack_size_unpack` for tuple-style layouts. -/
theorem packSeq_size_unpack : ∀ (ts : List DType) (vs : List DValue) (bs : List Bool),
    packSeq ts vs = some bs → bs.length = dsizeSum ts ∧ unpackSeq ts bs = some vs := by
  intro ts vs bs h
  cases ts with
  | nil =>
      cases vs with
      | nil =>
          simp only [packSeq] at h
          have hbs : bs = [] := (Option.some.inj h).symm
          subst hbs
          exact ⟨by simp [dsizeSum], by simp [unpackSeq]⟩
      | cons v vs => simp only [packSeq] at h; exact Option.noConfusion h
  | cons t ts =>
      cases vs with
      | nil => simp only [packSeq] at h; exact Option.noConfusion h
      | cons v vs =>
          simp only [packSeq] at h
          cases hb : pack t v with
          | none => simp only [hb] at h; exact Option.noConfusion h
          | some b =>
              simp only [hb] at h
              cases hr : packSeq ts vs with
              | none => simp only [hr] at h; exact Option.noConfusion h
              | some r =>
                  simp only [hr] at h
                  have hbs := (Option.some.inj h).symm
                  subst hbs
                  obtain ⟨hbl, hbu⟩ := pack_size_unpack t v b hb
                  obtain ⟨hrl, hru⟩ := packSeq_size_unpack ts vs r hr
                  constructor
                  · simp [dsizeSum, hbl, hrl]
                  · simp only [unpackSeq]
                    rw [show (b ++ r).take (dsize t) = b from List.take_left' hbl]
                    rw [show (b ++ r).drop (dsize t) = r from List.drop_left' hbl]
                    rw [hbu, hru]
termination_by ts vs bs _ => sizeOf vs

end

/-- C1: for every supported concrete type other than `Top` and every value
valid for it (that is, every value the codec accepts for packing),
unpacking the packed bit vector recovers the value: pack followed by
unpack is the identity on valid values.  `Top` has no pack form, so no
value is valid for it. -/
theorem C1_pack_unpack_roundtrip (T : DType) (v : DValue) (bs : List Bool)
    (h : pack T v = some bs) : unpack T bs = some v :=
  (pack_size_unpack T v bs h).2

/-- Witness for C1: the two-bit signed integer `-1` packs to the two's
complement vector `[1, 1]` and unpacks back to `-1`. -/
theorem C1_pack_unpack_roundtrip_witness :
    pack (DType.Int 2) (DValue.VInt (-1)) = some [true, true] ∧
    unpack (DType.Int 2) [true, true] = some (DValue.VInt (-1)) :=
  ⟨by decide, C1_pack_unpack_roundtrip (DType.Int 2) (DValue.VInt (-1)) [true, true] (by decide)⟩

/-- C4: a union's packed size is the largest member's size plus a trailing
discriminant field of ceiling-log2-of-the-member-count bits rounded up to
a whole byte; packing places the selected member's payload at the front
of the shared max-sized payload region and the discriminant identifying
that member in the final fixed-width field.  Concretely,
`Union [Int 32, Bool]` packs to 40 bits: a 32-bit payload region followed
by an 8-bit discriminant. -/
theorem C4_union_packing :
    (∀ ms : List DType,
        dsize (DType.Union ms) = dsizeMax ms + 8 * Nat.max 1 ((clg2 ms.length + 7) / 8)) ∧
    (∀ (ms : List DType) (tag : Nat) (pv : DValue) (bs : List Bool),
        pack (DType.Union ms) (DValue.VUnion tag pv) = some bs →
        ∃ m payload, ms[tag]? = some m ∧ pack m pv = some payload ∧
          payload.length = dsize m ∧
          bs = payload ++ List.replicate (dsizeMax ms - dsize m) false
                ++ natToBits (discBits ms.length) tag) ∧
    dsize (DType.Union [DType.Int 32, DType.Bool]) = 40 ∧
    pack (DType.Union [DType.Int 32, DType.Bool]) (DValue.VUnion 0 (DValue.VInt 1))
      = some (natToBits 32 1 ++ natToBits 8 0) ∧
    pack (DType.Union [DType.Int 32, DType.Bool]) (DValue.VUnion 1 (DValue.VBool true))
      = some ([true] ++ List.replicate 31 false ++ natToBits 8 1) := by
  refine ⟨?_, ?_, by decide, by decide, by decide⟩
  · intro ms
    simp [dsize, discBits]
  · intro ms tag pv bs h
    simp only [pack] at h
    cases hm : ms[tag]? with
    | none => simp only [hm] at h; exact Option.noConfusion h
    | some m =>
        simp only [hm] at h
        cases hp : pack m pv with
        | none => simp only [hp] at h; exact Option.noConfusion h
        | some payload =>
            simp only [hp] at h
            have hplen : payload.length = dsize m := (pack_size_unpack m pv payload hp).1
            refine ⟨m, payload, rfl, hp, hplen, ?_⟩
            rw [← hplen]
            exact (Option.some.inj h).symm

/-- Witness for C4: instantiating the pack-layout inversion at the
Boolean member of `Union [Int 32, Bool]`. -/
theorem C4_union_packing_witness :
    pack (DType.Union [DType.Int 32, DType.Bool]) (DValue.VUnion 1 (DValue.VBool true))
      = some ([true] ++ List.replicate 31 false ++ natToBits 8 1) ∧
    (∃ m payload, ([DType.Int 32, DType.Bool])[1]? = some m ∧
      pack m (DValue.VBool true) = some payload ∧
      payload.length = dsize m ∧
      ([true] ++ List.replicate 31 false ++ natToBits 8 1 : List Bool)
        = payload
          ++ List.replicate (dsizeMax [DType.Int 32, DType.Bool] - dsize m) false
          ++ natToBits (discBits ([DType.Int 32, DType.Bool] : List DType).length) 1) :=
  ⟨by decide,
   C4_union_packing.2.1 [DType.Int 32, DType.Bool] 1 (DValue.VBool true)
     ([true] ++ List.replicate 31 false ++ natToBits 8 1) (by decide)⟩

mutual

theorem dtypeEq_sound : ∀ (S T : DType), dtypeEq S T = true → S = T
  | .Int w, T => by cases T <;> simp [dtypeEq]
  | .UInt w, T => by cases T <;> simp [dtypeEq]
  | .Bool, T => by cases T <;> simp [dtypeEq]
  | .Char, T => by cases T <;> simp [dtypeEq]
  | .Float w, T => by cases T <;> simp [dtypeEq]
  | .Complex w, T => by cases T <;> simp [dtypeEq]
  | .Tuple ts, T => by
      cases T <;> simp [dtypeEq]
      exact dtypeEqList_sound ts _
  | .Array t n, T => by
      cases T <;> simp [dtypeEq]
      intro h1 h2
      exact ⟨dtypeEq_sound t _ h1, h2⟩
  | .Record fs, T => by
      cases T <;> simp [dtypeEq]
      exact dtypeEqFields_sound fs _
  | .Union ms, T => by
      cases T <;> simp [dtypeEq]
      exact dtypeEqList_sound ms _
  | .Top, T => by cases T <;> simp [dtypeEq]

theorem dtypeEqList_sound : ∀ (l l2 : List DType), dtypeEqList l l2 = true → l = l2
  | [], l2 => by cases l2 <;> simp [dtypeEqList]
  | t :: ts, l2 => by
      cases l2 with
      | nil => simp [dtypeEqList]
      | cons t2 ts2 =>
          simp only [dtypeEqList, Bool.and_eq_true, List.cons.injEq]
          intro h
          exact ⟨dtypeEq_sound t t2 h.1, dtypeEqList_sound ts ts2 h.2⟩

theorem dtypeEqFields_sound :
    ∀ (l l2 : List (String × DType)), dtypeEqFields l l2 = true → l = l2
  | [], l2 => by cases l2 <;> simp [dtypeEqFields]
  | (s, t) :: fs, l2 => by
      cases l2 with
      | nil => simp [dtypeEqFields]
      | cons f2 fs2 =>
          obtain ⟨s2, t2⟩ := f2
          simp only [dtypeEqFields, Bool.and_eq_true, beq_iff_eq, List.cons.injEq,
            Prod.mk.injEq]
          intro h
          exact ⟨⟨h.1.1, dtypeEq_sound t t2 h.1.2⟩, dtypeEqFields_sound fs fs2 h.2⟩

end

mutual

theorem dtypeEq_refl : ∀ S : DType, dtypeEq S S = true
  | .Int w => by simp [dtypeEq]
  | .UInt w => by simp [dtypeEq]
  | .Bool => by simp [dtypeEq]
  | .Char => by simp [dtypeEq]
  | .Float w => by simp [dtypeEq]
  | .Complex w => by simp [dtypeEq]
  | .Tuple ts => by simp only [dtypeEq]; exact dtypeEqList_refl ts
  | .Array t n => by simp [dtypeEq]; exact dtypeEq_refl t
  | .Record fs => by simp only [dtypeEq]; exact dtypeEqFields_refl fs
  | .Union ms => by simp only [dtypeEq]; exact dtypeEqList_refl ms
  | .Top => by simp [dtypeEq]

theorem dtypeEqList_refl : ∀ l : List DType, dtypeEqList l l = true
  | [] => by simp [dtypeEqList]
  | t :: ts => by
      simp only [dtypeEqList, Bool.and_eq_true]
      exact ⟨dtypeEq_refl t, dtypeEqList_refl ts⟩

theorem dtypeEqFields_refl : ∀ l : List (String × DType), dtypeEqFields l l = true
  | [] => by simp [dtypeEqFields]
  | (s, t) :: fs => by
      simp only [dtypeEqFields, Bool.and_eq_true, beq_self_eq_true, true_and]
      exact ⟨dtypeEq_refl t, dtypeEqFields_refl fs⟩

end

theorem dtypeEq_iff_eq (S T : DType) : dtypeEq S T = true ↔ S = T :=
  ⟨dtypeEq_sound S T, fun h => h ▸ dtypeEq_refl S⟩

/-- C3: two type instances are equal exactly when they have the same
variant and identical structural parameters; in particular a 32-bit and a
64-bit integer differ, arrays of different lengths differ, and the
single-member union of a type never equals that type alone. -/
theorem C3_type_equality :
    (∀ S T : DType, dtypeEq S T = true ↔ S = T) ∧
    dtypeEq (DType.Int 32) (DType.Int 64) = false ∧
    dtypeEq (DType.Array (DType.Int 32) 2) (DType.Array (DType.Int 32) 3) = false ∧
    dtypeEq (DType.Union [DType.Int 32]) (DType.Int 32) = false :=
  ⟨dtypeEq_iff_eq, by decide, by decide, by decide⟩

/-- C6: compatibility holds exactly when the consumer is `Top` or the
types are equal; a `Top` inside the substructure of a compound consumer
type is not accepted, and a single-member union is not compatible with
its member type. -/
theorem C6_is_compatible_iff :
    (∀ p c : DType, is_compatible p c = true ↔ (c = DType.Top ∨ p = c)) ∧
    is_compatible (DType.Tuple [DType.Int 32, DType.Int 32])
      (DType.Tuple [DType.Int 32, DType.Top]) = false ∧
    is_compatible (DType.Int 32) DType.Top = true ∧
    is_compatible (DType.Union [DType.Int 32]) (DType.Int 32) = false := by
  refine ⟨?_, by decide, by decide, by decide⟩
  intro p c
  cases c <;> simp [is_compatible, dtypeEq_iff_eq]

theorem sameDest_symm {w1 w2 : GWire} (h : sameDest w1 w2 = true) :
    sameDest w2 w1 = true := by
  simp only [sameDest, Bool.and_eq_true, beq_iff_eq] at h ⊢
  exact ⟨h.1.symm, h.2.symm⟩

theorem hasDupDest_of_getElem? :
    ∀ (ws : List GWire) (i j : Nat) (w1 w2 : GWire), i < j →
      ws[i]? = some w1 → ws[j]? = some w2 → sameDest w1 w2 = true →
      hasDupDest ws = true := by
  intro ws
  induction ws with
  | nil => intro i j w1 w2 hij h1 h2 hs; simp at h1
  | cons w rest ih =>
      intro i j w1 w2 hij h1 h2 hs
      cases i with
      | zero =>
          cases j with
          | zero => omega
          | succ j =>
              simp only [List.getElem?_cons_zero] at h1
              simp only [List.getElem?_cons_succ] at h2
              have hw : w = w1 := Option.some.inj h1
              have hmem : w2 ∈ rest := List.getElem?_mem h2
              rw [hasDupDest, Bool.or_eq_true]
              left
              rw [List.any_eq_true]
              exact ⟨w2, hmem, by rw [hw]; exact hs⟩
      | succ i =>
          cases j with
          | zero => omega
          | succ j =>
              simp only [List.getElem?_cons_succ] at h1 h2
              rw [hasDupDest, Bool.or_eq_true]
              right
              exact ih i j w1 w2 (by omega) h1 h2 hs

/-- C5: a graph containing two wires whose destinations name the same
(node, input port) pair fails validation — with no assumption on the
wires' type compatibility — and `run` refuses to start. -/
theorem C5_fan_in_validation (g : DGraph) (i j : Nat) (w1 w2 : GWire)
    (hne : i ≠ j) (h1 : g.wires[i]? = some w1) (h2 : g.wires[j]? = some w2)
    (hd : sameDest w1 w2 = true) :
    validateGraph g = false ∧
    runGraph g = Except.error RunRefusal.validationError := by
  have hdup : hasDupDest g.wires = true := by
    rcases Nat.lt_or_ge i j with hij | hij
    · exact hasDupDest_of_getElem? g.wires i j w1 w2 hij h1 h2 hd
    · have hji : j < i := by omega
      exact hasDupDest_of_getElem? g.wires j i w2 w1 hji h2 h1 (sameDest_symm hd)
  constructor
  · simp [validateGraph, hdup]
  · simp [runGraph, validateGraph, hdup]

/-- Witness for C5: the concrete duplicate-destination graph is rejected
even though each of its wires, taken alone, is well typed. -/
theorem C5_fan_in_validation_witness :
    (c5Graph.wires[0]? = some ⟨0, 0, 1, 0, false⟩ ∧
     c5Graph.wires[1]? = some ⟨0, 0, 1, 0, true⟩ ∧
     sameDest ⟨0, 0, 1, 0, false⟩ ⟨0, 0, 1, 0, true⟩ = true ∧
     c5Graph.wires.all (wireTypeOk c5Graph) = true) ∧
    validateGraph c5Graph = false ∧
    runGraph c5Graph = Except.error RunRefusal.validationError :=
  ⟨⟨by decide, by decide, by decide, by decide⟩,
   (C5_fan_in_validation c5Graph 0 1 ⟨0, 0, 1, 0, false⟩ ⟨0, 0, 1, 0, true⟩
      (by decide) (by decide) (by decide) (by decide)).1,
   (C5_fan_in_validation c5Graph 0 1 ⟨0, 0, 1, 0, false⟩ ⟨0, 0, 1, 0, true⟩
      (by decide) (by decide) (by decide) (by decide)).2⟩

theorem runSim_outcome_stable (fuel : Nat) (nodes : List SimNode) (st : SimState)
    (o : Outcome) (h : st.outcome = some o) : runSim fuel nodes st = st := by
  cases fuel with
  | zero => rfl
  | succ fuel => rw [runSim, h]

theorem runSim_add (a b : Nat) (nodes : List SimNode) (st : SimState) :
    runSim (a + b) nodes st = runSim b nodes (runSim a nodes st) := by
  induction a generalizing st with
  | zero => rw [Nat.zero_add]; rfl
  | succ a ih =>
      rw [show a + 1 + b = (a + b) + 1 from by omega]
      rw [runSim]
      cases ho : st.outcome with
      | some o =>
          rw [show runSim (a + 1) nodes st = st from by rw [runSim, ho]]
          exact (runSim_outcome_stable b nodes st o ho).symm
      | none =>
          rw [ih]
          rw [show runSim (a + 1) nodes st = runSim a nodes (simCycle st nodes) from by
            rw [runSim, ho]]

/-- C2: running the simulator on the quick-start graph yields the normal
`Completed` outcome — the cooperative termination signal is never
reported as a fault — and the sink has recorded exactly the value 7;
giving the scheduler any extra fuel changes nothing, so the result is not
an artifact of the cycle bound. -/
theorem C2_add_graph_completes :
    (runSim 2 c2AddGraph c2Init).outcome = some Outcome.Completed ∧
    (runSim 2 c2AddGraph c2Init).saved = [7] ∧
    (∀ n : Nat, (runSim 2 c2AddGraph c2Init).outcome ≠ some (Outcome.Faulted n)) ∧
    (∀ extra : Nat, runSim (2 + extra) c2AddGraph c2Init = runSim 2 c2AddGraph c2Init) := by
  have hout : (runSim 2 c2AddGraph c2Init).outcome = some Outcome.Completed := by decide
  refine ⟨hout, by decide, ?_, ?_⟩
  · intro n hn
    rw [hout] at hn
    simp at hn
  · intro extra
    rw [runSim_add]
    exact runSim_outcome_stable extra c2AddGraph _ Outcome.Completed hout

theorem chanRun_received_pending (ops : List ChanOp) (st : ChanState) (w : Nat) :
    (chanRun ops st).received w ++ pendingOn (chanRun ops st) w
      = st.received w ++ pendingOn st w ++ sentOn ops w := by
  induction ops generalizing st with
  | nil => simp [chanRun, sentOn]
  | cons op ops ih =>
      rw [chanRun, ih]
      cases op with
      | put u v =>
          by_cases hw : u = w
          · subst hw
            simp [chanStep, pendingOn, sentOn, List.filterMap_cons]
          · have hw2 : ¬ w = u := fun hh => hw hh.symm
            simp [chanStep, pendingOn, sentOn, List.filterMap_cons, hw, hw2]
      | get u =>
          cases hq : st.queues u with
          | nil => simp [chanStep, hq, pendingOn, sentOn, List.filterMap_cons]
          | cons p rest =>
              obtain ⟨v, stamp⟩ := p
              by_cases hw : u = w
              · subst hw
                simp [chanStep, hq, pendingOn, sentOn, List.filterMap_cons]
              · have hw2 : ¬ w = u := fun hh => hw hh.symm
                simp [chanStep, hq, pendingOn, sentOn, List.filterMap_cons, hw2]

theorem chanRun_clock_log (ops : List ChanOp) (st : ChanState) :
    (chanRun ops st).clock = st.clock + numPuts ops ∧
    logStamps (chanRun ops st) = logStamps st ++ List.range' (st.clock + 1) (numPuts ops) := by
  induction ops generalizing st with
  | nil => simp [chanRun, numPuts, logStamps]
  | cons op ops ih =>
      cases op with
      | put u v =>
          rw [chanRun]
          obtain ⟨hc, hl⟩ := ih (chanStep st (.put u v))
          constructor
          · rw [hc]
            simp [chanStep, numPuts]
            omega
          · rw [hl]
            simp only [chanStep, logStamps, numPuts, List.map_append, List.map_cons,
              List.map_nil, List.range'_succ, List.append_assoc]
            rfl
      | get u =>
          rw [chanRun]
          obtain ⟨hc, hl⟩ := ih (chanStep st (.get u))
          have hkeep : (chanStep st (.get u)).clock = st.clock ∧
              (chanStep st (.get u)).log = st.log := by
            cases hq : st.queues u with
            | nil => simp [chanStep, hq]
            | cons p rest =>
                obtain ⟨v, stamp⟩ := p
                simp [chanStep, hq]
          constructor
          · rw [hc, hkeep.1]
            simp [numPuts]
          · rw [hl, hkeep.1]
            simp only [logStamps, hkeep.2, numPuts]

theorem insertByStamp_mem (e x : Nat × Nat × Nat) :
    ∀ l : List (Nat × Nat × Nat), x ∈ insertByStamp e l ↔ x = e ∨ x ∈ l := by
  intro l
  induction l with
  | nil => simp [insertByStamp]
  | cons y ys ih =>
      rw [insertByStamp]
      by_cases hc : e.1 ≤ y.1
      · simp [hc]
      · simp only [hc, if_false, List.mem_cons, ih]
        tauto

theorem insertByStamp_pairwise (e : Nat × Nat × Nat) :
    ∀ l : List (Nat × Nat × Nat),
      List.Pairwise (fun a b => a.1 ≤ b.1) l →
      List.Pairwise (fun a b => a.1 ≤ b.1) (insertByStamp e l) := by
  intro l
  induction l with
  | nil => intro h; simp [insertByStamp]
  | cons y ys ih =>
      intro h
      rw [List.pairwise_cons] at h
      rw [insertByStamp]
      by_cases hc : e.1 ≤ y.1
      · rw [if_pos hc]
        rw [List.pairwise_cons]
        refine ⟨?_, List.pairwise_cons.mpr h⟩
        intro b hb
        rcases List.mem_cons.mp hb with hb | hb
        · subst hb; exact hc
        · exact le_trans hc (h.1 b hb)
      · rw [if_neg hc]
        rw [List.pairwise_cons]
        refine ⟨?_, ih h.2⟩
        intro b hb
        rcases (insertByStamp_mem e b ys).mp hb with hb | hb
        · subst hb; omega
        · exact h.1 b hb

theorem insertByStamp_perm (e : Nat × Nat × Nat) :
    ∀ l : List (Nat × Nat × Nat), (insertByStamp e l).Perm (e :: l) := by
  intro l
  induction l with
  | nil => simp [insertByStamp]
  | cons y ys ih =>
      rw [insertByStamp]
      by_cases hc : e.1 ≤ y.1
      · rw [if_pos hc]
      · rw [if_neg hc]
        exact List.Perm.trans (List.Perm.cons y ih) (List.Perm.swap e y ys)

theorem flushLog_pairwise (st : ChanState) :
    List.Pairwise (fun (a b : Nat × Nat × Nat) => a.1 ≤ b.1) (flushLog st) := by
  unfold flushLog
  induction st.log with
  | nil => simp
  | cons e l ih => exact insertByStamp_pairwise e _ ih

theorem flushLog_perm (st : ChanState) : (flushLog st).Perm st.log := by
  unfold flushLog
  induction st.log with
  | nil => simp
  | cons e l ih =>
      exact List.Perm.trans (insertByStamp_perm e _) (List.Perm.cons e ih)

/-- C8: every successful put stamps the enqueued message with the value
of the single globally shared logical clock, which strictly increases
across all wires system-wide — each enqueue anywhere increments it — and
the flushed message log is sorted in ascending logical-clock order while
containing exactly the accumulated messages. -/
theorem C8_logical_clock :
    (∀ (st : ChanState) (w v : Nat),
        (chanStep st (ChanOp.put w v)).clock = st.clock + 1 ∧
        (chanStep st (ChanOp.put w v)).log = st.log ++ [(st.clock + 1, w, v)]) ∧
    (∀ ops : List ChanOp,
        logStamps (chanRun ops chanInit) = List.range' 1 (numPuts ops) ∧
        List.Pairwise (fun a b => a < b) (logStamps (chanRun ops chanInit))) ∧
    (∀ st : ChanState,
        List.Pairwise (fun (a b : Nat × Nat × Nat) => a.1 ≤ b.1) (flushLog st) ∧
        (flushLog st).Perm st.log) := by
  refine ⟨?_, ?_, ?_⟩
  · intro st w v
    exact ⟨rfl, rfl⟩
  · intro ops
    have h := chanRun_clock_log ops chanInit
    have hs : logStamps (chanRun ops chanInit) = List.range' 1 (numPuts ops) := by
      rw [h.2]
      simp [chanInit, logStamps]
    refine ⟨hs, ?_⟩
    rw [hs]
    exact List.pairwise_lt_range' 1 (numPuts ops)
  · intro st
    exact ⟨flushLog_pairwise st, flushLog_perm st⟩

/-- C9: on every wire the consumer receives exactly the values the
producer sent, in the order they were sent — the received sequence plus
the still-queued values is the sent sequence, so what has been received
is an in-order prefix of what was sent — regardless of concurrent traffic
on other wires; in particular putting 1, 2, 3 on one wire delivers
exactly 1, 2, 3 in that order. -/
theorem C9_fifo_per_wire :
    (∀ (ops : List ChanOp) (w : Nat),
        (chanRun ops chanInit).received w ++ pendingOn (chanRun ops chanInit) w
          = sentOn ops w) ∧
    (∀ (ops : List ChanOp) (w : Nat),
        (chanRun ops chanInit).received w
          = (sentOn ops w).take ((chanRun ops chanInit).received w).length) ∧
    (chanRun c9DemoOps chanInit).received 0 = [1, 2, 3] ∧
    sentOn c9DemoOps 0 = [1, 2, 3] := by
  have hmain : ∀ (ops : List ChanOp) (w : Nat),
      (chanRun ops chanInit).received w ++ pendingOn (chanRun ops chanInit) w
        = sentOn ops w := by
    intro ops w
    have h := chanRun_received_pending ops chanInit w
    simpa [chanInit, pendingOn] using h
  refine ⟨hmain, ?_, by decide, by decide⟩
  intro ops w
  conv_lhs => rw [show (chanRun ops chanInit).received w
    = ((chanRun ops chanInit).received w ++ pendingOn (chanRun ops chanInit) w).take
        ((chanRun ops chanInit).received w).length from (List.take_left' rfl).symm]
  rw [hmain ops w]

/-- C10: at every point of every trace, what a consumer has received on a
wire is exactly the first k values sent on that wire for some k no larger
than the number sent — nothing is fabricated, duplicated or reordered —
and after cooperative termination k may remain strictly smaller than the
number sent: of ten values sent, a run may deliver all ten, or only six,
or none. -/
theorem C10_prefix_delivery :
    (∀ (ops : List ChanOp) (w : Nat),
        (chanRun ops chanInit).received w
          = (sentOn ops w).take ((chanRun ops chanInit).received w).length ∧
        ((chanRun ops chanInit).received w).length ≤ (sentOn ops w).length) ∧
    sentOn c10CutOps 0 = [1, 2, 3, 4, 5, 6, 7, 8, 9, 10] ∧
    (chanRun c10CutOps chanInit).received 0 = [1, 2, 3, 4, 5, 6] ∧
    (chanRun c10AllOps chanInit).received 0 = [1, 2, 3, 4, 5, 6, 7, 8, 9, 10] ∧
    (chanRun (c10CutOps.take 10) chanInit).received 0 = [] := by
  have hmain : ∀ (ops : List ChanOp) (w : Nat),
      (chanRun ops chanInit).received w ++ pendingOn (chanRun ops chanInit) w
        = sentOn ops w := by
    intro ops w
    have h := chanRun_received_pending ops chanInit w
    simpa [chanInit, pendingOn] using h
  refine ⟨?_, by decide, by decide, by decide, by decide⟩
  intro ops w
  constructor
  · conv_lhs => rw [show (chanRun ops chanInit).received w
      = ((chanRun ops chanInit).received w ++ pendingOn (chanRun ops chanInit) w).take
          ((chanRun ops chanInit).received w).length from (List.take_left' rfl).symm]
    rw [hmain ops w]
  · have h := hmain ops w
    have hlen := congrArg List.length h
    simp only [List.length_append] at hlen
    omega

/-- C7 counterexample: the claim that a no-argument `receive` returns the
first-available input as a single name-to-value pair is false on the
modelled behaviour.  With both inputs pending the call returns both
pairs, not one; and with only the first input available the call stays
blocked instead of returning that first-available input. -/
theorem C7_receive_counterexample :
    receiveNoArgs [( "a", some 1), ( "b", some 2)] = some [( "a", 1), ( "b", 2)] ∧
    (receiveNoArgs [( "a", some 1), ( "b", some 2)]).map List.length ≠ some 1 ∧
    receiveNoArgs [( "a", some 1), ( "b", none)] = none ∧
    firstAvailable [( "a", some 1), ( "b", none)] = some ( "a", 1) ∧
    receiveNoArgs [( "a", some 1), ( "b", none)]
      ≠ (firstAvailable [( "a", some 1), ( "b", none)]).map (fun p => [p]) := by
  refine ⟨by decide, by decide, by decide, by decide, by decide⟩

theorem receive_filterMap_spec :
    ∀ pending : List (String × Option Nat),
      pending.all (fun p => p.2.isSome) = true →
      (pending.filterMap (fun p => p.2.map (fun v => (p.1, v)))).map Prod.fst
          = pending.map Prod.fst ∧
      pending.map Prod.snd
          = (pending.filterMap (fun p => p.2.map (fun v => (p.1, v)))).map
              (fun q => some q.2) := by
  intro pending
  induction pending with
  | nil => intro h; simp
  | cons p rest ih =>
      intro h
      obtain ⟨s, o⟩ := p
      rw [List.all_cons] at h
      rw [Bool.and_eq_true] at h
      obtain ⟨v, hv⟩ := Option.isSome_iff_exists.mp h.1
      subst hv
      obtain ⟨ih1, ih2⟩ := ih h.2
      constructor
      · simp [List.filterMap_cons, ih1]
      · simp [List.filterMap_cons]
        exact ih2

/-- C7 amended: when an interactive body calls `receive` with no input
name, the call blocks until every input is available and then returns all
named inputs as a name-to-value mapping, one pair per input port in
declaration order. -/
theorem C7_receive_all_inputs (pending : List (String × Option Nat)) :
    (receiveNoArgs pending = none ↔ ∃ p ∈ pending, p.2 = none) ∧
    (∀ l, receiveNoArgs pending = some l →
        l.map Prod.fst = pending.map Prod.fst ∧
        pending.map Prod.snd = l.map (fun q => some q.2)) := by
  constructor
  · by_cases hc : pending.all (fun p => p.2.isSome) = true
    · simp only [receiveNoArgs, hc, if_true]
      rw [List.all_eq_true] at hc
      constructor
      · intro h; exact Option.noConfusion h
      · intro ⟨p, hp, hnone⟩
        have := hc p hp
        rw [hnone] at this
        simp at this
    · simp only [receiveNoArgs, hc, if_false]
      rw [List.all_eq_true] at hc
      push_neg at hc
      obtain ⟨p, hp, hval⟩ := hc
      constructor
      · intro _
        exact ⟨p, hp, Option.not_isSome_iff_eq_none.mp (by simpa using hval)⟩
      · intro _; rfl
  · intro l hl
    rw [receiveNoArgs] at hl
    split at hl
    case isFalse => exact Option.noConfusion hl
    case isTrue hc =>
      have hfl := (Option.some.inj hl).symm
      subst hfl
      exact receive_filterMap_spec pending hc

/-- Witness for C7's amended statement at a concrete pending state. -/
theorem C7_receive_all_inputs_witness :
    receiveNoArgs [( "a", some 1), ( "b", some 2)] = some [( "a", 1), ( "b", 2)] ∧
    ([( "a", 1), ( "b", 2)].map Prod.fst
        = [( "a", some 1), ( "b", some 2)].map Prod.fst ∧
     [( "a", some 1), ( "b", some 2)].map Prod.snd
        = [( "a", 1), ( "b", 2)].map (fun q => some q.2)) :=
  ⟨by decide,
   (C7_receive_all_inputs [( "a", some 1), ( "b", some 2)]).2
     [( "a", 1), ( "b", 2)] (by decide)⟩

end Deltaflow
